import Mathlib

/-!
Verification of the cutting-stock core of PipeCutMaster
(`server/optimization.ts`): the First-Fit Decreasing optimizer with kerf
accounting, the entity conversion, and the metrics aggregation. Real-valued
lengths are modelled as rationals; the JavaScript loops become structural
recursion over lists.
-/

namespace PipeCut

/-- Stock pipe row from the shared schema: `length` in meters, `diameter`
and `kerfWidth` in millimeters, `count` the number of available bars
(a positive integer per the data model, modelled as `ℕ`). -/
structure StockPipe where
  length : ℚ
  diameter : ℚ
  kerfWidth : ℚ
  count : ℕ
deriving DecidableEq

/-- One cutting requirement: a piece length (meters) and how many copies
are required. -/
structure CuttingRequirement where
  length : ℚ
  quantity : ℕ
deriving DecidableEq

/-- One contiguous span of a bar: its length, its offset from the bar's
start, and whether it is leftover waste. -/
structure PatternSegment where
  length : ℚ
  position : ℚ
  isWaste : Bool
deriving DecidableEq

/-- The packing of one stock bar as returned by `optimize`. -/
structure CuttingPatternResult where
  stockPipeIndex : ℕ
  efficiency : ℚ
  waste : ℚ
  segments : List PatternSegment
deriving DecidableEq

/-- One open bin of the FFD loop. The source keeps three parallel arrays
(`bins`, `binRemainingLengths`, `binSegments`) that are always pushed and
indexed together; they are modelled as one list of this record. -/
structure Bin where
  pieces : List ℚ
  remaining : ℚ
  segments : List PatternSegment
deriving DecidableEq

/-- Expansion of the requirement list into a flat sequence of piece lengths
(`quantity` copies of each `length`, in requirement order). -/
def expandRequirements (requirements : List CuttingRequirement) : List ℚ :=
  requirements.flatMap (fun req => List.replicate req.quantity req.length)

/-- The piece sort `pieces.sort((a, b) => b - a)`: a stable sort into
decreasing order. -/
def sortPieces (pieces : List ℚ) : List ℚ :=
  pieces.mergeSort (fun a b => decide (b ≤ a))

/-- The kerf a cut needs in a given bin, per
`const kerfNeeded = bins[j].length > 0 ? kerfWidthMeters : 0`: the first
piece of a bin incurs none. -/
def kerfNeeded (kerfWidthMeters : ℚ) (b : Bin) : ℚ :=
  if 0 < b.pieces.length then kerfWidthMeters else 0

/-- The placement of a piece into one bin: append the piece, subtract piece
plus kerf from the remaining length, and append the non-waste segment at
`(stockLength - remaining) + kerfNeeded`. -/
def placeInBin (stockLength kerfWidthMeters piece : ℚ) (b : Bin) : Bin :=
  { pieces := b.pieces ++ [piece],
    remaining := b.remaining - (piece + kerfNeeded kerfWidthMeters b),
    segments := b.segments ++
      [{ length := piece,
         position := (stockLength - b.remaining) + kerfNeeded kerfWidthMeters b,
         isWaste := false }] }

/-- The inner first-fit scan (the `for j` loop): place `piece` into the
first bin whose remaining length is at least the piece plus the kerf it
needs. Returns `none` when no open bin fits. -/
def tryPlace (stockLength kerfWidthMeters piece : ℚ) : List Bin → Option (List Bin)
  | [] => none
  | b :: bs =>
    if piece + kerfNeeded kerfWidthMeters b ≤ b.remaining then
      some (placeInBin stockLength kerfWidthMeters piece b :: bs)
    else
      (tryPlace stockLength kerfWidthMeters piece bs).map (fun bs' => b :: bs')

/-- A freshly opened bin holding its first piece: remaining length
`stockLength - piece`, one non-waste segment at position 0. -/
def newBin (stockLength piece : ℚ) : Bin :=
  { pieces := [piece], remaining := stockLength - piece,
    segments := [{ length := piece, position := 0, isWaste := false }] }

/-- The outer FFD loop over the sorted pieces: first-fit into the open bins,
else open a new bin while fewer than `maxStockCount` are open, else the
source warns and `break`s. The pieces the loop never processed are returned
as the second component. -/
def ffdLoop (stockLength kerfWidthMeters : ℚ) (maxStockCount : ℕ) :
    List Bin → List ℚ → List Bin × List ℚ
  | bins, [] => (bins, [])
  | bins, piece :: rest =>
    match tryPlace stockLength kerfWidthMeters piece bins with
    | some bins' => ffdLoop stockLength kerfWidthMeters maxStockCount bins' rest
    | none =>
      if bins.length < maxStockCount then
        ffdLoop stockLength kerfWidthMeters maxStockCount
          (bins ++ [newBin stockLength piece]) rest
      else
        (bins, piece :: rest)

/-- Finalization of one bin (the `for i` loop after placement): append a
waste segment when some length remains, positioned at the end of the last
placed segment, and compute the pattern's efficiency. The source reads
`segments[segments.length - 1]`; bins always hold at least one segment, so
`getLastD` with a dummy default models that read. -/
def finalizeBin (stockLength : ℚ) (i : ℕ) (b : Bin) : CuttingPatternResult :=
  let segments :=
    if 0 < b.remaining then
      let lastSegment := b.segments.getLastD { length := 0, position := 0, isWaste := false }
      b.segments ++
        [{ length := b.remaining,
           position := lastSegment.position + lastSegment.length,
           isWaste := true }]
    else b.segments
  { stockPipeIndex := i + 1,
    efficiency := (stockLength - b.remaining) / stockLength * 100,
    waste := b.remaining,
    segments := segments }

/-- The optimizer run before finalization: kerf converted from millimeters
to meters, requirements expanded and sorted decreasing, then the FFD loop
from an empty bin list. -/
def optimizeRun (stockPipe : StockPipe) (requirements : List CuttingRequirement) :
    List Bin × List ℚ :=
  ffdLoop stockPipe.length (stockPipe.kerfWidth / 1000) stockPipe.count []
    (sortPieces (expandRequirements requirements))

/-- The entry point `PipeCuttingOptimizer.optimize`: the finalized cutting patterns, one per
bin in creation order, `stockPipeIndex` 1-based. -/
def optimize (stockPipe : StockPipe) (requirements : List CuttingRequirement) :
    List CuttingPatternResult :=
  ((optimizeRun stockPipe requirements).1).mapIdx
    (fun i b => finalizeBin stockPipe.length i b)

/-- The pieces the run never placed. The source only logs a warning and
breaks out of the placement loop; the unprocessed remainder of the sorted
piece sequence is what it leaves unplaced. -/
def unplacedPieces (stockPipe : StockPipe) (requirements : List CuttingRequirement) : List ℚ :=
  (optimizeRun stockPipe requirements).2

/-- Job row: only its `id` is read by `createEntities`. -/
structure Job where
  id : ℕ
deriving DecidableEq

/-- Pattern row to insert: `jobId`, 1-based `stockPipeIndex`, efficiency and
waste copied from the computed pattern. -/
structure InsertCuttingPattern where
  jobId : ℕ
  stockPipeIndex : ℕ
  efficiency : ℚ
  waste : ℚ
deriving DecidableEq

/-- Segment row to insert: `patternId` is the sequential counter, `isWaste`
is stored as the integer 1 or 0. -/
structure InsertCuttingSegment where
  patternId : ℕ
  length : ℚ
  position : ℚ
  isWaste : ℕ
deriving DecidableEq

/-- The body of `createEntities`, with the running `patternId` counter made
an explicit argument (the source initializes it to 1 and increments it once
per pattern). -/
def createEntitiesAux (jobId : ℕ) (patternId : ℕ) :
    List CuttingPatternResult → List InsertCuttingPattern × List InsertCuttingSegment
  | [] => ([], [])
  | pattern :: rest =>
    let patternEntity : InsertCuttingPattern :=
      { jobId := jobId, stockPipeIndex := pattern.stockPipeIndex,
        efficiency := pattern.efficiency, waste := pattern.waste }
    let segmentEntities := pattern.segments.map (fun segment =>
      ({ patternId := patternId, length := segment.length, position := segment.position,
         isWaste := if segment.isWaste then 1 else 0 } : InsertCuttingSegment))
    let restEntities := createEntitiesAux jobId (patternId + 1) rest
    (patternEntity :: restEntities.1, segmentEntities ++ restEntities.2)

/-- The entity conversion `PipeCuttingOptimizer.createEntities`. -/
def createEntities (job : Job) (patterns : List CuttingPatternResult) :
    List InsertCuttingPattern × List InsertCuttingSegment :=
  createEntitiesAux job.id 1 patterns

/-- Aggregate metrics. JavaScript division by zero yields a non-finite
number (`NaN` for `0/0`, `±Infinity` otherwise); `efficiency := none`
models that non-finite outcome, `some` the ordinary finite quotient. -/
structure Metrics where
  efficiency : Option ℚ
  stockUsed : ℕ
  stockTotal : ℕ
  wasteTotal : ℚ
deriving DecidableEq

/-- The aggregation `PipeCuttingOptimizer.calculateMetrics`: total waste, total used length,
and overall efficiency over `patterns.length * stock.length`. -/
def calculateMetrics (stockPipe : StockPipe) (patterns : List CuttingPatternResult) : Metrics :=
  let wasteTotal := (patterns.map (fun p => p.waste)).sum
  let totalUsedLength := (patterns.map (fun p => stockPipe.length - p.waste)).sum
  let totalStockLength := (patterns.length : ℚ) * stockPipe.length
  { efficiency := if totalStockLength = 0 then none
                  else some (totalUsedLength / totalStockLength * 100),
    stockUsed := patterns.length,
    stockTotal := stockPipe.count,
    wasteTotal := wasteTotal }

/-- The lengths of the non-waste segments of the returned patterns, in
pattern order. -/
def nonWasteLengths (patterns : List CuttingPatternResult) : List ℚ :=
  patterns.flatMap (fun p => (p.segments.filter (fun s => !s.isWaste)).map (fun s => s.length))

/-- The pieces the run actually placed: the contents of the bins, in bin
order. -/
def placedPieces (stockPipe : StockPipe) (requirements : List CuttingRequirement) : List ℚ :=
  ((optimizeRun stockPipe requirements).1).flatMap (fun b => b.pieces)

/-- Concrete 5 m stock pipe used by witness theorems. -/
def pipe5m : StockPipe := { length := 5, diameter := 50, kerfWidth := 0, count := 1 }

/-- The single pattern `optimize` produces for one 3 m piece from `pipe5m`. -/
def wastePattern5m : CuttingPatternResult :=
  { stockPipeIndex := 1, efficiency := 60, waste := 2,
    segments := [{ length := 3, position := 0, isWaste := false },
                 { length := 2, position := 3, isWaste := true }] }

/-- The structural invariant each open bin of the FFD loop satisfies: it is
nonempty, its segment lengths are exactly its pieces, no segment is waste,
the first segment sits at position 0, each later segment sits at the
previous segment's end plus the kerf, and the last segment ends at
`stockLength - remaining`. -/
structure BinOk (stockLength kerfWidthMeters : ℚ) (b : Bin) : Prop where
  segsNe : b.segments ≠ []
  lengthsEq : b.segments.map (fun seg => seg.length) = b.pieces
  noWaste : ∀ seg ∈ b.segments, seg.isWaste = false
  headPos : ∀ seg ∈ b.segments.head?, seg.position = 0
  chain : List.Chain'
    (fun a c => c.position = a.position + a.length +
      (if c.isWaste then 0 else kerfWidthMeters)) b.segments
  lastEnd : ∀ seg ∈ b.segments.getLast?,
    seg.position + seg.length = stockLength - b.remaining

/-- Bounds on the remaining length of a bin, maintained when every placed
piece is positive and no longer than the bar and the kerf is nonnegative. -/
def BinBounds (stockLength : ℚ) (b : Bin) : Prop :=
  0 ≤ b.remaining ∧ b.remaining ≤ stockLength

/-- Concrete 6 m stock pipe, one bar, zero kerf, for counterexamples. -/
def pipe6m : StockPipe := { length := 6, diameter := 50, kerfWidth := 0, count := 1 }

/-- A single requirement of one 7 m piece — longer than `pipe6m`. -/
def req7m : List CuttingRequirement := [{ length := 7, quantity := 1 }]

/-- Concrete 6 m stock pipe with a 3 mm kerf and ten bars. -/
def pipeKerf : StockPipe := { length := 6, diameter := 50, kerfWidth := 3, count := 10 }

/-- One 1.5 m piece and one 2.2 m piece. -/
def reqMix : List CuttingRequirement :=
  [{ length := 3/2, quantity := 1 }, { length := 11/5, quantity := 1 }]

/-- The single pattern the optimizer returns for `req7m` from `pipe6m`:
the oversized piece is placed anyway, with negative waste. -/
def oversizedPattern : CuttingPatternResult :=
  { stockPipeIndex := 1, efficiency := 350/3, waste := -1,
    segments := [{ length := 7, position := 0, isWaste := false }] }

/-- Two 2.2 m pieces. -/
def reqTwo22 : List CuttingRequirement := [{ length := 11/5, quantity := 2 }]

/-- The single pattern `optimize` produces for `reqTwo22` from `pipeKerf`:
the second piece starts 3 mm past the end of the first (the kerf gap). -/
def kerfPattern : CuttingPatternResult :=
  { stockPipeIndex := 1, efficiency := 4403/60, waste := 1597/1000,
    segments := [{ length := 11/5, position := 0, isWaste := false },
                 { length := 11/5, position := 2203/1000, isWaste := false },
                 { length := 1597/1000, position := 4403/1000, isWaste := true }] }

/-! ### Basic lemmas about the loop -/

theorem tryPlace_length (s k p : ℚ) :
    ∀ (bins bins' : List Bin), tryPlace s k p bins = some bins' →
      bins'.length = bins.length := by
  intro bins
  induction bins with
  | nil => intro bins' h; simp [tryPlace] at h
  | cons b bs ih =>
    intro bins' h
    simp only [tryPlace] at h
    split at h
    · cases h
      simp
    · rcases Option.map_eq_some'.mp h with ⟨bs', hbs', rfl⟩
      simp [ih bs' hbs']

theorem ffdLoop_length_le (s k : ℚ) (max : ℕ) :
    ∀ (input : List ℚ) (bins : List Bin), bins.length ≤ max →
      ((ffdLoop s k max bins input).1).length ≤ max := by
  intro input
  induction input with
  | nil => intro bins h; simpa [ffdLoop] using h
  | cons piece rest ih =>
    intro bins h
    rw [ffdLoop]
    cases htp : tryPlace s k piece bins with
    | some bins' =>
      exact ih bins' (by rw [tryPlace_length s k piece bins bins' htp]; exact h)
    | none =>
      by_cases hlt : bins.length < max
      · simp only [hlt, if_true]
        exact ih _ (by simpa using hlt)
      · simp only [hlt, if_false]
        exact h

theorem tryPlace_pieces_perm (s k p : ℚ) :
    ∀ (bins bins' : List Bin), tryPlace s k p bins = some bins' →
      (bins'.flatMap (fun b => b.pieces)).Perm (p :: bins.flatMap (fun b => b.pieces)) := by
  intro bins
  induction bins with
  | nil => intro bins' h; simp [tryPlace] at h
  | cons b bs ih =>
    intro bins' h
    simp only [tryPlace] at h
    split at h
    · cases h
      simp only [List.flatMap_cons, placeInBin, List.append_assoc]
      exact (List.perm_append_comm_assoc _ _ _).trans (List.Perm.refl _)
    · rcases Option.map_eq_some'.mp h with ⟨bs', hbs', rfl⟩
      simp only [List.flatMap_cons]
      exact ((ih bs' hbs').append_left b.pieces).trans List.perm_middle

theorem ffdLoop_conservation (s k : ℚ) (max : ℕ) :
    ∀ (input : List ℚ) (bins : List Bin),
      ((((ffdLoop s k max bins input).1).flatMap (fun b => b.pieces)) ++
          (ffdLoop s k max bins input).2).Perm
        ((bins.flatMap (fun b => b.pieces)) ++ input) := by
  intro input
  induction input with
  | nil => intro bins; simp [ffdLoop]
  | cons piece rest ih =>
    intro bins
    rw [ffdLoop]
    cases htp : tryPlace s k piece bins with
    | some bins' =>
      refine (ih bins').trans ?_
      refine (((tryPlace_pieces_perm s k piece bins bins' htp).append_right rest).trans ?_)
      exact List.perm_middle.symm.trans (List.Perm.refl _) |>.symm.symm
    | none =>
      by_cases hlt : bins.length < max
      · simp only [hlt, if_true]
        refine (ih _).trans ?_
        rw [List.flatMap_append]
        simp [newBin, List.append_assoc]
      · simp only [hlt, if_false]
        exact List.Perm.refl _

theorem binOk_newBin (s k p : ℚ) : BinOk s k (newBin s p) := by
  constructor <;> simp [newBin]

theorem binOk_placeInBin (s k p : ℚ) (b : Bin) (hb : BinOk s k b) :
    BinOk s k (placeInBin s k p b) := by
  have hpieces : b.pieces ≠ [] := by
    rw [← hb.lengthsEq]
    simpa using hb.segsNe
  have hkn : kerfNeeded k b = k := by
    simp [kerfNeeded, List.length_pos.mpr hpieces]
  constructor
  · simp [placeInBin]
  · simp [placeInBin, hb.lengthsEq]
  · intro seg hseg
    rcases List.mem_append.mp hseg with h | h
    · exact hb.noWaste seg h
    · simp at h
      simp [h]
  · intro seg hseg
    rw [placeInBin] at hseg
    simp only [List.head?_append_of_ne_nil _ hb.segsNe] at hseg
    exact hb.headPos seg hseg
  · rw [placeInBin]
    refine List.chain'_append.mpr ⟨hb.chain, List.chain'_singleton _, ?_⟩
    intro x hx y hy
    simp only [List.head?_cons, Option.mem_def, Option.some.injEq] at hy
    subst hy
    rw [hkn, hb.lastEnd x hx]
    simp
  · intro seg hseg
    rw [placeInBin] at hseg
    simp only [List.getLast?_concat, Option.mem_def, Option.some.injEq] at hseg
    subst hseg
    simp only [placeInBin, hkn]
    ring

theorem tryPlace_binOk (s k p : ℚ) :
    ∀ (bins bins' : List Bin), tryPlace s k p bins = some bins' →
      (∀ b ∈ bins, BinOk s k b) → ∀ b ∈ bins', BinOk s k b := by
  intro bins
  induction bins with
  | nil => intro bins' h; simp [tryPlace] at h
  | cons b bs ih =>
    intro bins' h hall
    simp only [tryPlace] at h
    split at h
    · cases h
      intro b' hb'
      rcases List.mem_cons.mp hb' with rfl | hmem
      · exact binOk_placeInBin s k p b (hall b (by simp))
      · exact hall b' (by simp [hmem])
    · rcases Option.map_eq_some'.mp h with ⟨bs', hbs', rfl⟩
      intro b' hb'
      rcases List.mem_cons.mp hb' with rfl | hmem
      · exact hall b' (by simp)
      · exact ih bs' hbs' (fun x hx => hall x (by simp [hx])) b' hmem

theorem ffdLoop_binOk (s k : ℚ) (max : ℕ) :
    ∀ (input : List ℚ) (bins : List Bin), (∀ b ∈ bins, BinOk s k b) →
      ∀ b ∈ (ffdLoop s k max bins input).1, BinOk s k b := by
  intro input
  induction input with
  | nil => intro bins h; simpa [ffdLoop] using h
  | cons piece rest ih =>
    intro bins hall
    rw [ffdLoop]
    cases htp : tryPlace s k piece bins with
    | some bins' =>
      exact ih bins' (tryPlace_binOk s k piece bins bins' htp hall)
    | none =>
      by_cases hlt : bins.length < max
      · simp only [hlt, if_true]
        refine ih _ ?_
        intro b hb
        rcases List.mem_append.mp hb with h | h
        · exact hall b h
        · simp at h
          subst h
          exact binOk_newBin s k piece
      · simp only [hlt, if_false]
        exact hall

theorem optimizeRun_binOk (stockPipe : StockPipe) (requirements : List CuttingRequirement) :
    ∀ b ∈ (optimizeRun stockPipe requirements).1,
      BinOk stockPipe.length (stockPipe.kerfWidth / 1000) b :=
  ffdLoop_binOk _ _ _ _ [] (by simp)

/-! ### From bins to finalized patterns -/

theorem map_proj_mapIdx {β γ : Type _} (proj : β → γ) (g : Bin → γ) :
    ∀ (f : ℕ → Bin → β), (∀ i b, proj (f i b) = g b) →
    ∀ bins : List Bin, (bins.mapIdx f).map proj = bins.map g := by
  intro f hf bins
  induction bins generalizing f with
  | nil => simp
  | cons b bs ih =>
    rw [List.mapIdx_cons, List.map_cons, hf, List.map_cons,
      ih (fun i => f (i + 1)) (fun i b => hf (i + 1) b)]

theorem flatMap_congr_mem {α β : Type _} {f g : α → List β} :
    ∀ l : List α, (∀ a ∈ l, f a = g a) → l.flatMap f = l.flatMap g := by
  intro l h
  induction l with
  | nil => rfl
  | cons a as ih =>
    simp only [List.flatMap_cons, h a (by simp), ih (fun x hx => h x (by simp [hx]))]

theorem finalizeBin_filter_nonwaste (s : ℚ) (i : ℕ) (b : Bin)
    (hnw : ∀ seg ∈ b.segments, seg.isWaste = false) :
    ((finalizeBin s i b).segments.filter (fun seg => !seg.isWaste)) = b.segments := by
  have hfilter : b.segments.filter (fun seg => !seg.isWaste) = b.segments :=
    List.filter_eq_self.mpr (fun seg hseg => by simp [hnw seg hseg])
  rw [finalizeBin]
  split
  · rw [List.filter_append, hfilter]
    simp
  · exact hfilter

theorem optimize_map_segments (stockPipe : StockPipe) (requirements : List CuttingRequirement) :
    (optimize stockPipe requirements).map (fun p => p.segments) =
      ((optimizeRun stockPipe requirements).1).map
        (fun b => (finalizeBin stockPipe.length 0 b).segments) :=
  map_proj_mapIdx (fun p => p.segments)
    (fun b => (finalizeBin stockPipe.length 0 b).segments)
    (fun i b => finalizeBin stockPipe.length i b) (fun _ _ => rfl)
    ((optimizeRun stockPipe requirements).1)

theorem mem_mapIdx_exists {β : Type _} :
    ∀ (f : ℕ → Bin → β) (bins : List Bin) (p : β), p ∈ bins.mapIdx f →
      ∃ i, ∃ b ∈ bins, p = f i b := by
  intro f bins
  induction bins generalizing f with
  | nil => simp
  | cons b bs ih =>
    intro p hp
    rw [List.mapIdx_cons] at hp
    rcases List.mem_cons.mp hp with rfl | hmem
    · exact ⟨0, b, by simp, rfl⟩
    · rcases ih (fun i => f (i + 1)) p hmem with ⟨i, b', hb', rfl⟩
      exact ⟨i + 1, b', by simp [hb'], rfl⟩

theorem nonWasteLengths_optimize (stockPipe : StockPipe)
    (requirements : List CuttingRequirement) :
    nonWasteLengths (optimize stockPipe requirements) =
      placedPieces stockPipe requirements := by
  rw [nonWasteLengths, placedPieces]
  have h1 : (optimize stockPipe requirements).flatMap
      (fun p => (p.segments.filter (fun s => !s.isWaste)).map (fun s => s.length)) =
    ((optimize stockPipe requirements).map (fun p => p.segments)).flatMap
      (fun segs => (segs.filter (fun s => !s.isWaste)).map (fun s => s.length)) := by
    rw [List.flatMap_map]
  rw [h1, optimize_map_segments, List.flatMap_map]
  refine flatMap_congr_mem _ ?_
  intro b hb
  have hok := optimizeRun_binOk stockPipe requirements b hb
  show ((finalizeBin stockPipe.length 0 b).segments.filter
      (fun s => !s.isWaste)).map (fun s => s.length) = b.pieces
  rw [finalizeBin_filter_nonwaste _ _ _ hok.noWaste, hok.lengthsEq]

theorem finalizeBin_segments (s : ℚ) (i : ℕ) (b : Bin) :
    (finalizeBin s i b).segments =
      if 0 < b.remaining then
        b.segments ++
          [{ length := b.remaining,
             position :=
               (b.segments.getLastD { length := 0, position := 0, isWaste := false }).position +
               (b.segments.getLastD { length := 0, position := 0, isWaste := false }).length,
             isWaste := true }]
      else b.segments := rfl

theorem finalizeBin_waste_placement (s k : ℚ) (i : ℕ) (b : Bin) (hb : BinOk s k b) :
    (finalizeBin s i b).segments.countP (fun seg => seg.isWaste) ≤ 1 ∧
    ∀ seg ∈ (finalizeBin s i b).segments, seg.isWaste = true →
      (finalizeBin s i b).segments.getLast? = some seg ∧
      seg.position + seg.length = s := by
  have hcount0 : b.segments.countP (fun seg => seg.isWaste) = 0 :=
    List.countP_eq_zero.mpr (fun seg hseg => by simp [hb.noWaste seg hseg])
  obtain ⟨x, hx⟩ : ∃ x, b.segments.getLast? = some x := by
    cases h : b.segments.getLast? with
    | none => exact absurd (List.getLast?_eq_none_iff.mp h) hb.segsNe
    | some x => exact ⟨x, rfl⟩
  have hxD : b.segments.getLastD { length := 0, position := 0, isWaste := false } = x := by
    rw [List.getLastD_eq_getLast?, hx]
    rfl
  have hxend := hb.lastEnd x (by rw [hx]; rfl)
  rw [finalizeBin_segments]
  by_cases hrem : 0 < b.remaining
  · simp only [hrem, if_true, hxD]
    constructor
    · rw [List.countP_append, hcount0]
      simp [List.countP_cons]
    · intro seg hseg _
      rcases List.mem_append.mp hseg with h | h
      · exact absurd (hb.noWaste seg h) (by simp_all)
      · simp only [List.mem_singleton] at h
        subst h
        refine ⟨List.getLast?_concat _, ?_⟩
        simp only
        rw [hxend]
        ring
  · simp only [hrem, if_false]
    refine ⟨by rw [hcount0]; norm_num, ?_⟩
    intro seg hseg hwaste
    exact absurd (hb.noWaste seg hseg) (by simp [hwaste])

/-! ### Claim theorems: capacity, metrics, entities -/

/-- C2: the number of patterns returned by `optimize` never exceeds the
stock count, and consequently the `stockUsed` reported by
`calculateMetrics` on that output never exceeds `stockTotal`. -/
theorem optimize_patterns_le_count (stockPipe : StockPipe)
    (requirements : List CuttingRequirement) :
    (optimize stockPipe requirements).length ≤ stockPipe.count ∧
    (calculateMetrics stockPipe (optimize stockPipe requirements)).stockUsed ≤
      (calculateMetrics stockPipe (optimize stockPipe requirements)).stockTotal := by
  have hlen : (optimize stockPipe requirements).length ≤ stockPipe.count := by
    simp only [optimize, List.length_mapIdx, optimizeRun]
    exact ffdLoop_length_le _ _ _ _ [] (Nat.zero_le _)
  exact ⟨hlen, by simpa [calculateMetrics] using hlen⟩

/-- C1: the non-waste segment lengths across the returned patterns are
exactly the placed pieces, in order, so their sums agree; and when no
capacity exhaustion occurs (no piece left unplaced), their multiset equals
the expanded multiset of the requested piece lengths. -/
theorem optimize_conservation (stockPipe : StockPipe)
    (requirements : List CuttingRequirement) :
    nonWasteLengths (optimize stockPipe requirements) =
      placedPieces stockPipe requirements ∧
    (nonWasteLengths (optimize stockPipe requirements)).sum =
      (placedPieces stockPipe requirements).sum ∧
    (unplacedPieces stockPipe requirements = [] →
      (↑(nonWasteLengths (optimize stockPipe requirements)) : Multiset ℚ) =
        ↑(expandRequirements requirements)) := by
  refine ⟨nonWasteLengths_optimize _ _, by rw [nonWasteLengths_optimize], ?_⟩
  intro hunp
  rw [Multiset.coe_eq_coe, nonWasteLengths_optimize, placedPieces]
  simp only [unplacedPieces, optimizeRun] at hunp
  have h := ffdLoop_conservation stockPipe.length (stockPipe.kerfWidth / 1000)
    stockPipe.count (sortPieces (expandRequirements requirements)) []
  rw [hunp, List.append_nil] at h
  simp only [List.flatMap_nil, List.nil_append] at h
  simp only [optimizeRun]
  exact h.trans (List.mergeSort_perm _ _)

/-- C1 witness: two 3 m pieces from 5 m bars with two bars available — all
pieces are placed and the non-waste multiset equals the expansion. -/
theorem optimize_conservation_witness :
    unplacedPieces { length := 5, diameter := 50, kerfWidth := 0, count := 2 }
        [{ length := 3, quantity := 2 }] = [] ∧
    (↑(nonWasteLengths (optimize { length := 5, diameter := 50, kerfWidth := 0, count := 2 }
        [{ length := 3, quantity := 2 }])) : Multiset ℚ) =
      ↑(expandRequirements [{ length := 3, quantity := 2 }]) :=
  ⟨by norm_num [unplacedPieces, optimizeRun, sortPieces, expandRequirements, List.replicate,
      List.mergeSort, List.merge, ffdLoop, tryPlace, kerfNeeded, newBin, placeInBin],
   (optimize_conservation { length := 5, diameter := 50, kerfWidth := 0, count := 2 }
      [{ length := 3, quantity := 2 }]).2.2
     (by norm_num [unplacedPieces, optimizeRun, sortPieces, expandRequirements, List.replicate,
        List.mergeSort, List.merge, ffdLoop, tryPlace, kerfNeeded, newBin, placeInBin])⟩

theorem ffdLoop_append_of_all_placed (s k : ℚ) (max : ℕ) :
    ∀ (pre : List ℚ) (bins : List Bin), (ffdLoop s k max bins pre).2 = [] →
      ∀ post, ffdLoop s k max bins (pre ++ post) =
        ffdLoop s k max ((ffdLoop s k max bins pre).1) post := by
  intro pre
  induction pre with
  | nil => intro bins _ post; rfl
  | cons piece rest ih =>
    intro bins hplaced post
    rw [List.cons_append, ffdLoop]
    rw [ffdLoop] at hplaced ⊢
    cases htp : tryPlace s k piece bins with
    | some bins' =>
      rw [htp] at hplaced
      exact ih bins' hplaced post
    | none =>
      rw [htp] at hplaced
      by_cases hlt : bins.length < max
      · simp only [hlt, if_true] at hplaced ⊢
        exact ih _ hplaced post
      · simp only [hlt, if_false] at hplaced
        exact absurd hplaced (by simp)

/-- C7: once the sorted pieces reach a first piece that fits no open bin
while the maximum number of bins is already open, the loop stops: the
returned patterns are the finalization of the bins built from the earlier
pieces only, and that piece together with every later piece is left
unplaced — none of them is attempted. -/
theorem optimize_short_circuit (stockPipe : StockPipe)
    (requirements : List CuttingRequirement) (pre : List ℚ) (p : ℚ) (rest : List ℚ)
    (hsplit : sortPieces (expandRequirements requirements) = pre ++ p :: rest)
    (hpre : (ffdLoop stockPipe.length (stockPipe.kerfWidth / 1000)
        stockPipe.count [] pre).2 = [])
    (hfail : tryPlace stockPipe.length (stockPipe.kerfWidth / 1000) p
        ((ffdLoop stockPipe.length (stockPipe.kerfWidth / 1000)
          stockPipe.count [] pre).1) = none)
    (hfull : ¬ ((ffdLoop stockPipe.length (stockPipe.kerfWidth / 1000)
        stockPipe.count [] pre).1).length < stockPipe.count) :
    optimize stockPipe requirements =
      (((ffdLoop stockPipe.length (stockPipe.kerfWidth / 1000)
          stockPipe.count [] pre).1).mapIdx
        (fun i b => finalizeBin stockPipe.length i b)) ∧
    unplacedPieces stockPipe requirements = p :: rest := by
  have hrun : optimizeRun stockPipe requirements =
      ((ffdLoop stockPipe.length (stockPipe.kerfWidth / 1000)
        stockPipe.count [] pre).1, p :: rest) := by
    rw [optimizeRun, hsplit,
      ffdLoop_append_of_all_placed _ _ _ pre [] hpre (p :: rest), ffdLoop, hfail]
    simp only [hfull, if_false]
  constructor
  · rw [optimize, hrun]
  · rw [unplacedPieces, hrun]

/-- C7 witness: 5 m bars, one bar allowed, pieces 3, 3, 2 — after the first
3 is placed, the second 3 fits nowhere and the loop stops, leaving the 2
unattempted even though it would have fit the open bin. -/
theorem optimize_short_circuit_witness :
    optimize { length := 5, diameter := 50, kerfWidth := 0, count := 1 }
        [{ length := 3, quantity := 2 }, { length := 2, quantity := 1 }] =
      (((ffdLoop 5 (0 / 1000) 1 [] [3]).1).mapIdx (fun i b => finalizeBin 5 i b)) ∧
    unplacedPieces { length := 5, diameter := 50, kerfWidth := 0, count := 1 }
        [{ length := 3, quantity := 2 }, { length := 2, quantity := 1 }] = [3, 2] :=
  optimize_short_circuit
    { length := 5, diameter := 50, kerfWidth := 0, count := 1 }
    [{ length := 3, quantity := 2 }, { length := 2, quantity := 1 }]
    [3] 3 [2]
    (by norm_num [sortPieces, expandRequirements, List.replicate, List.mergeSort, List.merge])
    (by norm_num [ffdLoop, tryPlace, kerfNeeded, newBin, placeInBin])
    (by norm_num [ffdLoop, tryPlace, kerfNeeded, newBin, placeInBin])
    (by norm_num [ffdLoop, tryPlace, kerfNeeded, newBin, placeInBin])

/-- C6: `calculateMetrics` returns the sum of the pattern wastes as
`wasteTotal`, the number of patterns as `stockUsed`, the stock count as
`stockTotal`, and the claimed overall-efficiency quotient whenever that
quotient's denominator is nonzero (nonempty patterns and a nonzero bar
length; with an empty list the source divides zero by zero). -/
theorem calculateMetrics_spec (stockPipe : StockPipe)
    (patterns : List CuttingPatternResult) :
    (calculateMetrics stockPipe patterns).wasteTotal =
      (patterns.map (fun p => p.waste)).sum ∧
    (calculateMetrics stockPipe patterns).stockUsed = patterns.length ∧
    (calculateMetrics stockPipe patterns).stockTotal = stockPipe.count ∧
    (patterns ≠ [] → stockPipe.length ≠ 0 →
      (calculateMetrics stockPipe patterns).efficiency =
        some ((patterns.map (fun p => stockPipe.length - p.waste)).sum /
          (((calculateMetrics stockPipe patterns).stockUsed : ℚ) * stockPipe.length) * 100)) := by
  refine ⟨rfl, rfl, rfl, ?_⟩
  intro hne hlen
  have hnz : ((patterns.length : ℚ)) * stockPipe.length ≠ 0 :=
    mul_ne_zero (Nat.cast_ne_zero.mpr (List.length_pos.mpr hne).ne') hlen
  simp only [calculateMetrics, hnz, if_false]

/-- C6 witness at a concrete input. -/
theorem calculateMetrics_spec_witness :
    (calculateMetrics pipeKerf [wastePattern5m]).wasteTotal =
      ([wastePattern5m].map (fun p => p.waste)).sum ∧
    (calculateMetrics pipeKerf [wastePattern5m]).stockUsed = 1 ∧
    (calculateMetrics pipeKerf [wastePattern5m]).stockTotal = pipeKerf.count ∧
    (calculateMetrics pipeKerf [wastePattern5m]).efficiency =
      some (([wastePattern5m].map (fun p => pipeKerf.length - p.waste)).sum /
        (((calculateMetrics pipeKerf [wastePattern5m]).stockUsed : ℚ) * pipeKerf.length) * 100) :=
  ⟨(calculateMetrics_spec pipeKerf [wastePattern5m]).1,
   (calculateMetrics_spec pipeKerf [wastePattern5m]).2.1,
   (calculateMetrics_spec pipeKerf [wastePattern5m]).2.2.1,
   (calculateMetrics_spec pipeKerf [wastePattern5m]).2.2.2 (by simp)
     (by norm_num [pipeKerf])⟩

/-- C8 counterexample: on the empty pattern list the code's efficiency is
the non-finite (NaN) outcome — modelled as `none` — and in particular not
the finite value 0 the claim requires. -/
theorem calculateMetrics_empty_is_nan :
    (calculateMetrics { length := 6, diameter := 50, kerfWidth := 3, count := 10 } []).efficiency
      = none ∧
    ¬ ∃ q : ℚ, (calculateMetrics { length := 6, diameter := 50, kerfWidth := 3, count := 10 }
        []).efficiency = some q := by
  constructor
  · simp [calculateMetrics]
  · rintro ⟨q, hq⟩
    simp [calculateMetrics] at hq

/-- C8 amended: on the empty pattern list `calculateMetrics` returns zero
waste, zero stock used, the configured stock total, and a non-finite (NaN)
efficiency — the division `0 / 0` — which callers must guard against. -/
theorem calculateMetrics_empty (stockPipe : StockPipe) :
    calculateMetrics stockPipe [] =
      { efficiency := none, stockUsed := 0, stockTotal := stockPipe.count,
        wasteTotal := 0 } := by
  simp [calculateMetrics]

theorem createEntitiesAux_spec (jobId : ℕ) (patterns : List CuttingPatternResult) :
    ∀ patternId : ℕ,
      createEntitiesAux jobId patternId patterns =
        (patterns.map (fun p =>
            { jobId := jobId, stockPipeIndex := p.stockPipeIndex,
              efficiency := p.efficiency, waste := p.waste }),
         (patterns.mapIdx (fun i p => p.segments.map (fun s =>
            ({ patternId := i + patternId, length := s.length, position := s.position,
               isWaste := if s.isWaste then 1 else 0 } : InsertCuttingSegment)))).flatten) := by
  induction patterns with
  | nil => intro patternId; simp [createEntitiesAux]
  | cons pattern rest ih =>
    intro patternId
    simp only [createEntitiesAux, ih (patternId + 1), List.map_cons, List.mapIdx_cons,
      List.flatten_cons, Nat.zero_add]
    refine Prod.ext rfl ?_
    simp only [Nat.add_assoc, Nat.add_comm 1 patternId]

/-- C10: `createEntities` yields one pattern row per pattern, in order,
copying `stockPipeIndex`, `efficiency` and `waste` and stamping the job id;
and one segment row per segment, in order, with `isWaste` encoded as the
integer 1 or 0 and `patternId` the 1-based position of the containing
pattern in the input list. -/
theorem createEntities_spec (job : Job) (patterns : List CuttingPatternResult) :
    (createEntities job patterns).1 = patterns.map (fun p =>
        { jobId := job.id, stockPipeIndex := p.stockPipeIndex,
          efficiency := p.efficiency, waste := p.waste }) ∧
    (createEntities job patterns).2 =
      (patterns.mapIdx (fun i p => p.segments.map (fun s =>
          ({ patternId := i + 1, length := s.length, position := s.position,
             isWaste := if s.isWaste then 1 else 0 } : InsertCuttingSegment)))).flatten := by
  rw [createEntities, createEntitiesAux_spec job.id patterns 1]
  exact ⟨rfl, rfl⟩

/-- C5: every pattern returned by `optimize` has at most one waste segment;
when one is present it is the last segment of the pattern and its position
plus its length equals the stock length exactly. -/
theorem optimize_waste_placement (stockPipe : StockPipe)
    (requirements : List CuttingRequirement) :
    ∀ p ∈ optimize stockPipe requirements,
      p.segments.countP (fun seg => seg.isWaste) ≤ 1 ∧
      ∀ seg ∈ p.segments, seg.isWaste = true →
        p.segments.getLast? = some seg ∧
        seg.position + seg.length = stockPipe.length := by
  intro p hp
  rw [optimize] at hp
  rcases mem_mapIdx_exists _ _ p hp with ⟨i, b, hbmem, rfl⟩
  exact finalizeBin_waste_placement stockPipe.length (stockPipe.kerfWidth / 1000) i b
    (optimizeRun_binOk stockPipe requirements b hbmem)

/-- C5 witness: one 3 m piece in a 5 m bar leaves a single waste segment,
last, ending at 5 m. -/
theorem optimize_waste_placement_witness :
    wastePattern5m.segments.countP (fun seg => seg.isWaste) ≤ 1 ∧
    ∀ seg ∈ wastePattern5m.segments, seg.isWaste = true →
      wastePattern5m.segments.getLast? = some seg ∧
      seg.position + seg.length = pipe5m.length :=
  optimize_waste_placement pipe5m [{ length := 3, quantity := 1 }] wastePattern5m
    (by norm_num [pipe5m, wastePattern5m, optimize, optimizeRun, sortPieces,
      expandRequirements, List.replicate, List.mergeSort, ffdLoop, tryPlace, kerfNeeded,
      newBin, placeInBin, finalizeBin])

theorem tryPlace_binBounds (s k p : ℚ) (hk : 0 ≤ k) (hp : 0 ≤ p) :
    ∀ (bins bins' : List Bin), tryPlace s k p bins = some bins' →
      (∀ b ∈ bins, BinBounds s b) → ∀ b ∈ bins', BinBounds s b := by
  intro bins
  induction bins with
  | nil => intro bins' h; simp [tryPlace] at h
  | cons b bs ih =>
    intro bins' h hall
    by_cases hfit : p + kerfNeeded k b ≤ b.remaining
    · rw [tryPlace, if_pos hfit] at h
      cases h
      intro b' hb'
      rcases List.mem_cons.mp hb' with rfl | hmem
      · have hbb := hall b (by simp)
        have hkN : 0 ≤ kerfNeeded k b := by
          rw [kerfNeeded]
          split
          · exact hk
          · exact le_refl 0
        constructor
        · show (0 : ℚ) ≤ b.remaining - (p + kerfNeeded k b)
          linarith
        · show b.remaining - (p + kerfNeeded k b) ≤ s
          linarith [hbb.2]
      · exact hall b' (by simp [hmem])
    · rw [tryPlace, if_neg hfit] at h
      rcases Option.map_eq_some'.mp h with ⟨bs', hbs', rfl⟩
      intro b' hb'
      rcases List.mem_cons.mp hb' with rfl | hmem
      · exact hall b' (by simp)
      · exact ih bs' hbs' (fun x hx => hall x (by simp [hx])) b' hmem

theorem ffdLoop_binBounds (s k : ℚ) (max : ℕ) (hk : 0 ≤ k) :
    ∀ (input : List ℚ) (bins : List Bin),
      (∀ x ∈ input, 0 < x ∧ x ≤ s) → (∀ b ∈ bins, BinBounds s b) →
      ∀ b ∈ (ffdLoop s k max bins input).1, BinBounds s b := by
  intro input
  induction input with
  | nil => intro bins _ hall; simpa [ffdLoop] using hall
  | cons piece rest ih =>
    intro bins hin hall
    rw [ffdLoop]
    cases htp : tryPlace s k piece bins with
    | some bins' =>
      exact ih bins' (fun x hx => hin x (by simp [hx]))
        (tryPlace_binBounds s k piece hk (le_of_lt (hin piece (by simp)).1)
          bins bins' htp hall)
    | none =>
      by_cases hlt : bins.length < max
      · simp only [hlt, if_true]
        refine ih _ (fun x hx => hin x (by simp [hx])) ?_
        intro b hb
        rcases List.mem_append.mp hb with h | h
        · exact hall b h
        · simp only [List.mem_singleton] at h
          subst h
          have hpb := hin piece (by simp)
          constructor
          · show (0 : ℚ) ≤ s - piece
            linarith [hpb.2]
          · show s - piece ≤ s
            linarith [hpb.1]
      · simp only [hlt, if_false]
        exact hall

/-- C3 counterexample: `pipe6m` (length 6 > 0, one bar) and `req7m` (one
piece of positive length 7, quantity 1) satisfy the claim's preconditions,
yet the returned pattern has waste −1 < 0 and efficiency 350/3 > 100. -/
theorem optimize_bounds_counterexample :
    (0 : ℚ) < pipe6m.length ∧ 1 ≤ pipe6m.count ∧
    (∀ r ∈ req7m, 0 < r.length ∧ 1 ≤ r.quantity) ∧
    ∃ p ∈ optimize pipe6m req7m, p.waste < 0 ∧ 100 < p.efficiency := by
  refine ⟨by norm_num [pipe6m], by norm_num [pipe6m], ?_, ?_⟩
  · intro r hr
    rcases List.mem_singleton.mp hr with rfl
    exact ⟨by norm_num, le_refl 1⟩
  refine ⟨oversizedPattern, ?_, by norm_num [oversizedPattern]⟩
  norm_num [pipe6m, req7m, oversizedPattern, optimize, optimizeRun, sortPieces,
    expandRequirements, List.replicate, List.mergeSort, ffdLoop, tryPlace, kerfNeeded,
    newBin, placeInBin, finalizeBin]

/-- C3 amended: under the stated preconditions strengthened with the
requirement — forced by the counterexample — that no requested length
exceeds the bar length (and a nonnegative kerf, per the data model), every
pattern returned by `optimize` has nonnegative waste and efficiency within
[0, 100]. -/
theorem optimize_bounds (stockPipe : StockPipe)
    (requirements : List CuttingRequirement)
    (hlen : 0 < stockPipe.length) (hkerf : 0 ≤ stockPipe.kerfWidth)
    (hreq : ∀ r ∈ requirements, 0 < r.length ∧ r.length ≤ stockPipe.length) :
    ∀ p ∈ optimize stockPipe requirements,
      0 ≤ p.waste ∧ 0 ≤ p.efficiency ∧ p.efficiency ≤ 100 := by
  intro p hp
  rw [optimize] at hp
  rcases mem_mapIdx_exists _ _ p hp with ⟨i, b, hbmem, rfl⟩
  have hbb : BinBounds stockPipe.length b := by
    refine ffdLoop_binBounds stockPipe.length (stockPipe.kerfWidth / 1000) stockPipe.count
      (by positivity) _ [] ?_ (by simp) b hbmem
    intro x hx
    rw [sortPieces, List.mem_mergeSort] at hx
    rcases List.mem_flatMap.mp hx with ⟨req, hreqmem, hxrep⟩
    rw [List.eq_of_mem_replicate hxrep]
    exact hreq req hreqmem
  refine ⟨hbb.1, ?_, ?_⟩
  · show (0 : ℚ) ≤ (stockPipe.length - b.remaining) / stockPipe.length * 100
    have hnum : (0 : ℚ) ≤ stockPipe.length - b.remaining := by linarith [hbb.2]
    have := div_nonneg hnum (le_of_lt hlen)
    linarith
  · show (stockPipe.length - b.remaining) / stockPipe.length * 100 ≤ 100
    have h1 : (stockPipe.length - b.remaining) / stockPipe.length ≤ 1 :=
      div_le_one_of_le₀ (by linarith [hbb.1]) (le_of_lt hlen)
    linarith

/-- C3 witness: a 1.5 m and a 2.2 m piece from 6 m bars with 3 mm kerf —
every returned pattern satisfies the bounds. -/
theorem optimize_bounds_witness :
    (0 : ℚ) < pipeKerf.length ∧
    (∀ r ∈ reqMix, 0 < r.length ∧ r.length ≤ pipeKerf.length) ∧
    ∀ p ∈ optimize pipeKerf reqMix,
      0 ≤ p.waste ∧ 0 ≤ p.efficiency ∧ p.efficiency ≤ 100 := by
  refine ⟨by norm_num [pipeKerf], ?_, ?_⟩
  · intro r hr
    rcases List.mem_cons.mp hr with rfl | hr
    · norm_num [pipeKerf]
    · rcases List.mem_singleton.mp hr with rfl
      norm_num [pipeKerf]
  refine optimize_bounds pipeKerf reqMix (by norm_num [pipeKerf]) (by norm_num [pipeKerf]) ?_
  intro r hr
  rcases List.mem_cons.mp hr with rfl | hr
  · norm_num [pipeKerf]
  · rcases List.mem_singleton.mp hr with rfl
    norm_num [pipeKerf]

/-- C4 counterexample: for one 7 m piece and 6 m bars the code does not
return zero patterns — it opens a bin, places the oversized piece in it
(waste −1), and reports nothing unplaced. -/
theorem optimize_oversized_counterexample :
    optimize pipe6m req7m = [oversizedPattern] ∧
    unplacedPieces pipe6m req7m = [] := by
  constructor <;>
    norm_num [pipe6m, req7m, oversizedPattern, optimize, unplacedPieces, optimizeRun,
      sortPieces, expandRequirements, List.replicate, List.mergeSort, ffdLoop, tryPlace,
      kerfNeeded, newBin, placeInBin, finalizeBin]

/-- C4 amended: for a single requirement of one piece at least as long as
the bar, with at least one bar available, the optimizer opens a new bin and
places the piece in it: exactly one pattern is returned, holding the piece
as its only segment at position 0, with nonpositive waste
`stock.length − L`, and no piece is reported unplaced. -/
theorem optimize_oversized (stockPipe : StockPipe) (L : ℚ)
    (hcount : 1 ≤ stockPipe.count) (hL : stockPipe.length ≤ L) :
    optimize stockPipe [{ length := L, quantity := 1 }] =
      [{ stockPipeIndex := 1,
         efficiency := (stockPipe.length - (stockPipe.length - L)) / stockPipe.length * 100,
         waste := stockPipe.length - L,
         segments := [{ length := L, position := 0, isWaste := false }] }] ∧
    unplacedPieces stockPipe [{ length := L, quantity := 1 }] = [] ∧
    stockPipe.length - L ≤ 0 := by
  have hsort : sortPieces (expandRequirements [{ length := L, quantity := 1 }]) = [L] := by
    simp [sortPieces, expandRequirements, List.replicate]
  have hrun : optimizeRun stockPipe [{ length := L, quantity := 1 }] =
      ([newBin stockPipe.length L], []) := by
    rw [optimizeRun, hsort, ffdLoop]
    have hpos : (0 : ℕ) < stockPipe.count := hcount
    simp [tryPlace, ffdLoop, hpos]
  have hno : ¬ (0 < stockPipe.length - L) := by linarith
  refine ⟨?_, ?_, by linarith⟩
  · rw [optimize, hrun]
    simp [finalizeBin, newBin, hno]
  · rw [unplacedPieces, hrun]

/-- C4 witness: the amended statement instantiated at `pipe6m` and a 7 m
piece. -/
theorem optimize_oversized_witness :
    optimize pipe6m [{ length := 7, quantity := 1 }] =
      [{ stockPipeIndex := 1,
         efficiency := (pipe6m.length - (pipe6m.length - 7)) / pipe6m.length * 100,
         waste := pipe6m.length - 7,
         segments := [{ length := 7, position := 0, isWaste := false }] }] ∧
    unplacedPieces pipe6m [{ length := 7, quantity := 1 }] = [] ∧
    pipe6m.length - 7 ≤ 0 :=
  optimize_oversized pipe6m 7 (le_refl 1) (by norm_num [pipe6m])

theorem chain'_mono_of_mem {α : Type _} {R S : α → α → Prop} :
    ∀ l : List α, (∀ a ∈ l, ∀ c ∈ l, R a c → S a c) → List.Chain' R l → List.Chain' S l := by
  intro l
  induction l with
  | nil => intro _ _; exact List.chain'_nil
  | cons a as ih =>
    intro h hc
    rcases List.chain'_cons'.mp hc with ⟨hhead, htail⟩
    refine List.chain'_cons'.mpr
      ⟨?_, ih (fun x hx y hy => h x (by simp [hx]) y (by simp [hy])) htail⟩
    intro y hy
    exact h a (by simp) y (by simp [List.mem_of_mem_head? hy]) (hhead y hy)

theorem optimizeRun_pieces_from_reqs (stockPipe : StockPipe)
    (requirements : List CuttingRequirement) :
    ∀ b ∈ (optimizeRun stockPipe requirements).1, ∀ x ∈ b.pieces,
      ∃ r ∈ requirements, x = r.length := by
  intro b hb x hx
  have hperm := ffdLoop_conservation stockPipe.length (stockPipe.kerfWidth / 1000)
    stockPipe.count (sortPieces (expandRequirements requirements)) []
  simp only [List.flatMap_nil, List.nil_append] at hperm
  have hplaced : x ∈ ((optimizeRun stockPipe requirements).1).flatMap (fun t => t.pieces) :=
    List.mem_flatMap.mpr ⟨b, hb, hx⟩
  have hxin : x ∈ sortPieces (expandRequirements requirements) := by
    refine hperm.mem_iff.mp ?_
    simp only [optimizeRun] at hplaced
    exact List.mem_append.mpr (Or.inl hplaced)
  rw [sortPieces, List.mem_mergeSort] at hxin
  rcases List.mem_flatMap.mp hxin with ⟨r, hr, hxr⟩
  exact ⟨r, hr, List.eq_of_mem_replicate hxr⟩

theorem finalizeBin_layout (s k : ℚ) (i : ℕ) (b : Bin) (hb : BinOk s k b)
    (hk : 0 ≤ k) (hpos : ∀ x ∈ b.pieces, 0 < x) :
    (∀ seg ∈ (finalizeBin s i b).segments.head?, seg.position = 0) ∧
    List.Chain' (fun a c => c.position = a.position + a.length +
      (if c.isWaste then 0 else k)) (finalizeBin s i b).segments ∧
    List.Chain' (fun a c => a.position ≤ c.position) (finalizeBin s i b).segments := by
  obtain ⟨x, hx⟩ : ∃ x, b.segments.getLast? = some x := by
    cases h : b.segments.getLast? with
    | none => exact absurd (List.getLast?_eq_none_iff.mp h) hb.segsNe
    | some x => exact ⟨x, rfl⟩
  have hxD : b.segments.getLastD { length := 0, position := 0, isWaste := false } = x := by
    rw [List.getLastD_eq_getLast?, hx]
    rfl
  have hsegsLen : ∀ seg ∈ b.segments, 0 ≤ seg.length := by
    intro seg hseg
    have hmem : seg.length ∈ b.segments.map (fun t => t.length) :=
      List.mem_map_of_mem _ hseg
    rw [hb.lengthsEq] at hmem
    exact le_of_lt (hpos _ hmem)
  have hhead : ∀ seg ∈ (finalizeBin s i b).segments.head?, seg.position = 0 := by
    rw [finalizeBin_segments]
    by_cases hrem : 0 < b.remaining
    · simp only [hrem, if_true]
      rw [List.head?_append_of_ne_nil _ hb.segsNe]
      exact hb.headPos
    · simp only [hrem, if_false]
      exact hb.headPos
  have hchain : List.Chain' (fun a c => c.position = a.position + a.length +
      (if c.isWaste then 0 else k)) (finalizeBin s i b).segments := by
    rw [finalizeBin_segments]
    by_cases hrem : 0 < b.remaining
    · simp only [hrem, if_true, hxD]
      refine List.chain'_append.mpr ⟨hb.chain, List.chain'_singleton _, ?_⟩
      intro y hy z hz
      simp only [List.head?_cons, Option.mem_def, Option.some.injEq] at hz
      subst hz
      rw [hx] at hy
      simp only [Option.mem_def, Option.some.injEq] at hy
      subst hy
      simp
    · simp only [hrem, if_false]
      exact hb.chain
  have hlen2 : ∀ seg ∈ (finalizeBin s i b).segments, 0 ≤ seg.length := by
    rw [finalizeBin_segments]
    by_cases hrem : 0 < b.remaining
    · simp only [hrem, if_true]
      intro seg hseg
      rcases List.mem_append.mp hseg with h | h
      · exact hsegsLen seg h
      · simp only [List.mem_singleton] at h
        subst h
        exact le_of_lt hrem
    · simp only [hrem, if_false]
      exact hsegsLen
  refine ⟨hhead, hchain, ?_⟩
  refine chain'_mono_of_mem _ ?_ hchain
  intro a ha c hc hR
  have hk' : (0 : ℚ) ≤ (if c.isWaste then 0 else k) := by
    split
    · exact le_refl 0
    · exact hk
  have hal := hlen2 a ha
  linarith [hR]

/-- C9 counterexample: with a 3 mm kerf the second 2.2 m piece starts at
2.203 m, not at the first segment's end 2.2 m — the segments of the
returned pattern are not laid out contiguously. -/
theorem optimize_layout_counterexample :
    optimize pipeKerf reqTwo22 = [kerfPattern] ∧
    (kerfPattern.segments.getD 1 { length := 0, position := 0, isWaste := false }).position ≠
      (kerfPattern.segments.getD 0 { length := 0, position := 0, isWaste := false }).position +
      (kerfPattern.segments.getD 0 { length := 0, position := 0, isWaste := false }).length := by
  constructor
  · norm_num [pipeKerf, reqTwo22, kerfPattern, optimize, optimizeRun, sortPieces,
      expandRequirements, List.replicate, List.mergeSort, List.merge, ffdLoop, tryPlace,
      kerfNeeded, newBin, placeInBin, finalizeBin]
  · norm_num [kerfPattern]

/-- C9 amended: within every returned pattern the first segment starts at
position 0 and the segments are chained with the kerf gap — each non-waste
segment after the first starts at the previous segment's end plus the kerf
in meters, the waste segment starts exactly at the previous segment's end;
consequently positions are non-decreasing, and a waste segment ends exactly
at the bar length. -/
theorem optimize_segment_layout (stockPipe : StockPipe)
    (requirements : List CuttingRequirement)
    (hkerf : 0 ≤ stockPipe.kerfWidth) (hreq : ∀ r ∈ requirements, 0 < r.length) :
    ∀ p ∈ optimize stockPipe requirements,
      (∀ seg ∈ p.segments.head?, seg.position = 0) ∧
      List.Chain' (fun a c => c.position = a.position + a.length +
        (if c.isWaste then 0 else stockPipe.kerfWidth / 1000)) p.segments ∧
      List.Chain' (fun a c => a.position ≤ c.position) p.segments ∧
      (∀ seg ∈ p.segments, seg.isWaste = true →
        seg.position + seg.length = stockPipe.length) := by
  intro p hp
  rw [optimize] at hp
  rcases mem_mapIdx_exists _ _ p hp with ⟨i, b, hbmem, rfl⟩
  have hok := optimizeRun_binOk stockPipe requirements b hbmem
  have hpos : ∀ x ∈ b.pieces, 0 < x := by
    intro x hx
    rcases optimizeRun_pieces_from_reqs stockPipe requirements b hbmem x hx with ⟨r, hr, rfl⟩
    exact hreq r hr
  have hlay := finalizeBin_layout stockPipe.length (stockPipe.kerfWidth / 1000) i b hok
    (by positivity) hpos
  refine ⟨hlay.1, hlay.2.1, hlay.2.2, ?_⟩
  intro seg hseg hw
  exact ((finalizeBin_waste_placement stockPipe.length (stockPipe.kerfWidth / 1000) i b
    hok).2 seg hseg hw).2

/-- C9 witness: the amended layout statement holds for the kerf-gap
pattern. -/
theorem optimize_segment_layout_witness :
    (∀ seg ∈ kerfPattern.segments.head?, seg.position = 0) ∧
    List.Chain' (fun a c => c.position = a.position + a.length +
      (if c.isWaste then 0 else pipeKerf.kerfWidth / 1000)) kerfPattern.segments ∧
    List.Chain' (fun a c => a.position ≤ c.position) kerfPattern.segments ∧
    (∀ seg ∈ kerfPattern.segments, seg.isWaste = true →
      seg.position + seg.length = pipeKerf.length) :=
  optimize_segment_layout pipeKerf reqTwo22 (by norm_num [pipeKerf])
    (by
      intro r hr
      rcases List.mem_singleton.mp hr with rfl
      norm_num)
    kerfPattern
    (by norm_num [pipeKerf, reqTwo22, kerfPattern, optimize, optimizeRun, sortPieces,
      expandRequirements, List.replicate, List.mergeSort, List.merge, ffdLoop, tryPlace,
      kerfNeeded, newBin, placeInBin, finalizeBin])

end PipeCut
